import Mathlib

/-!
# libHttpClient: `Source/Global/global.h`

A shallow embedding of the two things `global.h` defines in full:

* `http_retry_after_api_state` (lines 14-31), the retry-after record with its two constructors;
* `shared_ptr_cache` (lines 88-161), the handle table that maps a raw `void*` to a
  `std::shared_ptr<void>` kept in `http_singleton::m_sharedPtrs`.

Conventions of the embedding.

* A raw pointer is a natural number, `0` being `nullptr`.
* A `std::shared_ptr` is a pair of a control block (`none` when it owns nothing) and the stored
  pointer that `get()` returns.  The aliasing constructor keeps the control block and replaces
  the stored pointer.
* `std::unordered_map<void*, std::shared_ptr<void>>` is a list of key/value pairs whose keys are
  pairwise distinct (a property of the container, carried by the type).  Only `find`, `insert`,
  `erase(iterator)`, `size` and `clear` are used by the source, none of which observes the
  iteration order.
* `std::lock_guard` is scoped and has no effect on the sequential behaviour; every operation is
  one atomic step on the process state.
* `ASSERT(c)` records that a failing assertion was reached (`asserted = true` in the outcome).
  In a build where `ASSERT` aborts, the process stops there; the rest of the outcome is what the
  statements after the `ASSERT` compute in a build where it is compiled out.
-/

namespace HttpClient

/-! ## `http_retry_after_api_state` (global.h:14-31) -/

/-- The type `uint32_t`. -/
abbrev uint32_t := Fin 4294967296

/-- Modelled from the spec: `chrono_clock_t` is declared outside global.h.  Its `time_point` is
a `std::chrono::time_point`, a signed tick count since the clock's epoch, whose default
constructor yields the epoch itself (the "zero-valued default" of the spec). -/
structure time_point where
  time_since_epoch : Int
deriving DecidableEq, Repr

/-- Default construction `time_point()`. -/
def time_point.default : time_point := ⟨0⟩

/-- The record of `global.h:14-31`. -/
structure http_retry_after_api_state where
  retryAfterTime : time_point
  statusCode : uint32_t
deriving DecidableEq, Repr

/-- The constructor `http_retry_after_api_state() : statusCode(0)` (global.h:16-18).
`retryAfterTime` is absent from the member initialiser list, hence default-constructed. -/
def http_retry_after_api_state.ctor0 : http_retry_after_api_state :=
  { retryAfterTime := time_point.default, statusCode := 0 }

/-- The constructor `http_retry_after_api_state(_retryAfterTime, _statusCode)` (global.h:20-27). -/
def http_retry_after_api_state.ctor2 (_retryAfterTime : time_point) (_statusCode : uint32_t) :
    http_retry_after_api_state :=
  { retryAfterTime := _retryAfterTime, statusCode := _statusCode }

/-! ## Pointers -/

/-- A raw `void*`. -/
abbrev VoidPtr := Nat

/-- The null pointer. -/
def nullptr : VoidPtr := 0

/-- A `std::shared_ptr<T>`: its control block (`none` if it owns nothing) and its stored
pointer. -/
structure shared_ptr where
  owner : Option Nat
  stored : VoidPtr
deriving DecidableEq, Repr

namespace shared_ptr

/-- The member `get()`. -/
def get (p : shared_ptr) : VoidPtr := p.stored

/-- The default constructor `std::shared_ptr<T>()`, also the conversion from `nullptr`. -/
def empty : shared_ptr := ⟨none, nullptr⟩

/-- The aliasing constructor `std::shared_ptr<U>(r, ptr)`: shares ownership with `r`, stores
`ptr`. -/
def aliasing (r : shared_ptr) (ptr : VoidPtr) : shared_ptr := ⟨r.owner, ptr⟩

/-- Two shared pointers share ownership when they have the same control block. -/
def sharesOwnership (p q : shared_ptr) : Prop := p.owner = q.owner

instance (p q : shared_ptr) : Decidable (sharesOwnership p q) := by
  unfold sharesOwnership; infer_instance

end shared_ptr

/-! ## The container `http_internal_unordered_map<void*, std::shared_ptr<void>>` -/

/-- The entry stored under key `k`, if any (`unordered_map::find`). -/
def findEntry (k : VoidPtr) : List (VoidPtr × shared_ptr) → Option shared_ptr
  | [] => none
  | e :: rest => if e.1 = k then some e.2 else findEntry k rest

/-- Removal of the one element with key `k` (`unordered_map::erase` at the iterator that `find`
returned). -/
def eraseEntry (k : VoidPtr) : List (VoidPtr × shared_ptr) → List (VoidPtr × shared_ptr)
  | [] => []
  | e :: rest => if e.1 = k then rest else e :: eraseEntry k rest

/-- The keys of a list of entries. -/
def keysOf (l : List (VoidPtr × shared_ptr)) : List VoidPtr := l.map Prod.fst

theorem findEntry_eq_none_iff (k : VoidPtr) (l : List (VoidPtr × shared_ptr)) :
    findEntry k l = none ↔ k ∉ keysOf l := by
  induction l with
  | nil => simp [findEntry, keysOf]
  | cons e rest ih =>
    unfold findEntry
    by_cases h : e.1 = k
    · subst h
      simp [keysOf]
    · have h2 : ¬ k = e.1 := fun h3 => h h3.symm
      simp only [h, if_false, ih]
      simp [keysOf, h2]

theorem mem_keysOf_eraseEntry {k j : VoidPtr} {l : List (VoidPtr × shared_ptr)}
    (h : j ∈ keysOf (eraseEntry k l)) : j ∈ keysOf l := by
  induction l with
  | nil => simpa [eraseEntry] using h
  | cons e rest ih =>
    unfold eraseEntry at h
    by_cases hk : e.1 = k
    · simp only [hk, if_true] at h
      simp only [keysOf, List.map_cons, List.mem_cons]
      exact Or.inr h
    · simp only [hk, if_false, keysOf, List.map_cons, List.mem_cons] at h
      simp only [keysOf, List.map_cons, List.mem_cons]
      rcases h with h | h
      · exact Or.inl h
      · exact Or.inr (ih h)

theorem nodup_keysOf_eraseEntry (k : VoidPtr) {l : List (VoidPtr × shared_ptr)}
    (h : (keysOf l).Nodup) : (keysOf (eraseEntry k l)).Nodup := by
  induction l with
  | nil => simpa [eraseEntry] using h
  | cons e rest ih =>
    simp only [keysOf, List.map_cons, List.nodup_cons] at h
    unfold eraseEntry
    by_cases hk : e.1 = k
    · simpa [hk] using h.2
    · simp only [hk, if_false, keysOf, List.map_cons, List.nodup_cons]
      exact ⟨fun hm => h.1 (mem_keysOf_eraseEntry hm), ih h.2⟩

/-- The map `m_sharedPtrs`: entries with pairwise distinct keys. -/
structure HandleTable where
  entries : List (VoidPtr × shared_ptr)
  nodup : (keysOf entries).Nodup

namespace HandleTable

theorem ext_entries {s t : HandleTable} (h : s.entries = t.entries) : s = t := by
  cases s; cases t; cases h; rfl

instance : DecidableEq HandleTable := fun s t =>
  decidable_of_iff (s.entries = t.entries) ⟨ext_entries, fun h => by rw [h]⟩

/-- The empty map (a freshly constructed container, or the result of `clear()`). -/
def clear : HandleTable := ⟨[], List.nodup_nil⟩

/-- The call `find(k)`: `none` stands for `end()`, `some e` for an iterator whose `second` is
`e`. -/
def find (t : HandleTable) (k : VoidPtr) : Option shared_ptr := findEntry k t.entries

/-- The call `size()`. -/
def size (t : HandleTable) : Nat := t.entries.length

/-- The call `erase(iter)` for the iterator of key `k`. -/
def erase (t : HandleTable) (k : VoidPtr) : HandleTable :=
  ⟨eraseEntry k t.entries, nodup_keysOf_eraseEntry k t.nodup⟩

/-- The call `insert(std::make_pair(k, v))`: inserts only if no element with key `k` exists,
otherwise leaves the container as it is. -/
def insert (t : HandleTable) (k : VoidPtr) (v : shared_ptr) : HandleTable :=
  if h : findEntry k t.entries = none then
    ⟨(k, v) :: t.entries, by
      have hk := (findEntry_eq_none_iff k t.entries).1 h
      simpa [keysOf] using And.intro hk t.nodup⟩
  else t

/-- Every key equals the address held by the reference stored under it. -/
def KeyIsAddr (t : HandleTable) : Prop := ∀ e ∈ t.entries, e.1 = e.2.get

instance (t : HandleTable) : Decidable t.KeyIsAddr := by
  unfold KeyIsAddr; infer_instance

end HandleTable

/-! ## The singleton and the operations of `shared_ptr_cache` -/

/-- The part of `http_singleton` (global.h:33-80) that `shared_ptr_cache` reads and writes: the
map `m_sharedPtrs`.  The mutex `m_sharedPtrsLock` only serialises the operations. -/
structure http_singleton where
  m_sharedPtrs : HandleTable
deriving DecidableEq

/-- What a call leaves behind: the returned value, the process-wide singleton slot afterwards,
and whether a failing `ASSERT` was reached on the way. -/
structure Outcome (α : Type) where
  ret : α
  state : Option http_singleton
  asserted : Bool
deriving DecidableEq

/-- Modelled from the spec: `get_http_singleton` is only declared in global.h (line 83).  It
returns a shared reference to the live singleton or none; with `assertIfNull` set and no live
singleton it reaches a fatal assertion, otherwise none is returned silently. -/
def get_http_singleton (g : Option http_singleton) (assertIfNull : Bool) :
    Outcome (Option http_singleton) :=
  match g with
  | some s => ⟨some s, g, false⟩
  | none => ⟨none, g, assertIfNull⟩

namespace shared_ptr_cache

/-- The function `shared_ptr_cache::store` (global.h:91-103). -/
def store (g : Option http_singleton) (contextSharedPtr : shared_ptr) : Outcome VoidPtr :=
  let got := get_http_singleton g false
  match got.ret with
  | none => ⟨nullptr, got.state, got.asserted⟩
  | some httpSingleton =>
    let rawVoidPtr := contextSharedPtr.get
    let voidSharedPtr := shared_ptr.aliasing contextSharedPtr rawVoidPtr
    ⟨rawVoidPtr,
      some { httpSingleton with
        m_sharedPtrs := httpSingleton.m_sharedPtrs.insert rawVoidPtr voidSharedPtr },
      got.asserted⟩

/-- The function `shared_ptr_cache::fetch` (global.h:105-132).  The `reinterpret_cast<T*>` keeps
the address, so the template parameter does not appear. -/
def fetch (g : Option http_singleton) (rawContextPtr : VoidPtr) (deleteShared : Bool)
    (assertIfNotFound : Bool) : Outcome shared_ptr :=
  let got := get_http_singleton g false
  match got.ret with
  | none => ⟨shared_ptr.empty, got.state, got.asserted⟩
  | some httpSingleton =>
    match httpSingleton.m_sharedPtrs.find rawContextPtr with
    | some second =>
      let returnPtr := shared_ptr.aliasing second second.get
      if deleteShared then
        ⟨returnPtr,
          some { httpSingleton with
            m_sharedPtrs := httpSingleton.m_sharedPtrs.erase rawContextPtr },
          got.asserted⟩
      else
        ⟨returnPtr, some httpSingleton, got.asserted⟩
    | none =>
      if assertIfNotFound then
        ⟨shared_ptr.empty, some httpSingleton, true⟩
      else
        ⟨shared_ptr.empty, some httpSingleton, got.asserted⟩

/-- The function `shared_ptr_cache::remove` (global.h:134-148). -/
def remove (g : Option http_singleton) (rawContextPtr : VoidPtr) : Outcome Unit :=
  let got := get_http_singleton g false
  match got.ret with
  | none => ⟨(), got.state, got.asserted⟩
  | some httpSingleton =>
    match httpSingleton.m_sharedPtrs.find rawContextPtr with
    | some _ =>
      ⟨(), some { httpSingleton with
        m_sharedPtrs := httpSingleton.m_sharedPtrs.erase rawContextPtr }, got.asserted⟩
    | none => ⟨(), some httpSingleton, got.asserted⟩

/-- The function `shared_ptr_cache::cleanup` (global.h:150-155), called on a singleton the
caller holds: `ASSERT(size() == 0)` and then `clear()`.  The `state` of the outcome is that
singleton afterwards. -/
def cleanup (httpSingleton : http_singleton) : Outcome Unit :=
  ⟨(), some { httpSingleton with m_sharedPtrs := HandleTable.clear },
    !(httpSingleton.m_sharedPtrs.size == 0)⟩

end shared_ptr_cache

/-! ## Sequences of operations -/

/-- The slot as `get_http_singleton(false)` sees it, then the entry of `m_sharedPtrs` under
`k`, if there is a singleton and it has one. -/
def entryAt (g : Option http_singleton) (k : VoidPtr) : Option shared_ptr :=
  g.bind fun s => s.m_sharedPtrs.find k

/-- Consecutive calls `store(v)` for the values of a list, in the order of the list: the returned
identities, the final slot, and whether any call reached a failing `ASSERT`. -/
def storeAll (g : Option http_singleton) : List shared_ptr → Outcome (List VoidPtr)
  | [] => ⟨[], g, false⟩
  | v :: vs =>
    let o := shared_ptr_cache.store g v
    let r := storeAll o.state vs
    ⟨o.ret :: r.ret, r.state, o.asserted || r.asserted⟩

/-- Consecutive calls `fetch(k, deleteShared, assertIfNotFound)` for the identities of a list,
in the order of the list: the returned references, the final slot, and whether any call reached
a failing `ASSERT`. -/
def fetchAll (g : Option http_singleton) (deleteShared assertIfNotFound : Bool) :
    List VoidPtr → Outcome (List shared_ptr)
  | [] => ⟨[], g, false⟩
  | k :: ks =>
    let o := shared_ptr_cache.fetch g k deleteShared assertIfNotFound
    let r := fetchAll o.state deleteShared assertIfNotFound ks
    ⟨o.ret :: r.ret, r.state, o.asserted || r.asserted⟩

/-- One call of the interface of `shared_ptr_cache`. -/
inductive Op where
  | store (v : shared_ptr)
  | fetch (rawContextPtr : VoidPtr) (deleteShared assertIfNotFound : Bool)
  | remove (rawContextPtr : VoidPtr)
  | cleanup
deriving DecidableEq, Repr

/-- The slot after one call; `cleanup` is called on the live singleton, if any. -/
def Op.apply (g : Option http_singleton) : Op → Option http_singleton
  | Op.store v => (shared_ptr_cache.store g v).state
  | Op.fetch k d a => (shared_ptr_cache.fetch g k d a).state
  | Op.remove k => (shared_ptr_cache.remove g k).state
  | Op.cleanup =>
    match g with
    | some s => (shared_ptr_cache.cleanup s).state
    | none => none

/-- The states a live singleton goes through: it starts with an empty `m_sharedPtrs` (the
member is default-constructed) and changes only by calls of `shared_ptr_cache`. -/
def Reachable (s : http_singleton) : Prop :=
  ∃ ops : List Op, ops.foldl Op.apply (some ⟨HandleTable.clear⟩) = some s

/-- Each key is the address of its entry, for the table of the singleton in the slot, if any. -/
def SlotKeyIsAddr (g : Option http_singleton) : Prop :=
  ∀ s, g = some s → s.m_sharedPtrs.KeyIsAddr

/-! ## Sample states and the spec-side operation -/

/-- A table with one entry, stored under the address `16` by the control block `1`. -/
def tableOne : http_singleton := ⟨⟨[(16, ⟨some 1, 16⟩)], by decide⟩⟩

/-- A table with two entries, under the addresses `32` and `16`. -/
def tableTwo : http_singleton := ⟨⟨[(32, ⟨some 2, 32⟩), (16, ⟨some 1, 16⟩)], by decide⟩⟩

/-- The operation "take" in the words of the spec for fetch-with-deletion: a non-deleting fetch
followed by `remove` of the same identity. -/
def take (g : Option http_singleton) (rawContextPtr : VoidPtr) (assertIfNotFound : Bool) :
    Outcome shared_ptr :=
  let f := shared_ptr_cache.fetch g rawContextPtr false assertIfNotFound
  let r := shared_ptr_cache.remove f.state rawContextPtr
  ⟨f.ret, r.state, f.asserted || r.asserted⟩

end HttpClient

/-! ## Lemmas on the container -/

namespace HttpClient

theorem findEntry_eraseEntry_self (k : VoidPtr) {l : List (VoidPtr × shared_ptr)}
    (h : (keysOf l).Nodup) : findEntry k (eraseEntry k l) = none := by
  induction l with
  | nil => rfl
  | cons e rest ih =>
    simp only [keysOf, List.map_cons, List.nodup_cons] at h
    unfold eraseEntry
    by_cases hk : e.1 = k
    · simp only [hk, if_true]
      exact (findEntry_eq_none_iff k rest).2 (hk ▸ h.1)
    · simp only [hk, if_false, findEntry]
      exact ih h.2

theorem findEntry_eraseEntry_ne {k j : VoidPtr} (hjk : j ≠ k) (l : List (VoidPtr × shared_ptr)) :
    findEntry j (eraseEntry k l) = findEntry j l := by
  induction l with
  | nil => rfl
  | cons e rest ih =>
    unfold eraseEntry
    by_cases hk : e.1 = k
    · have hj : ¬ e.1 = j := fun h => hjk (h.symm.trans hk)
      rw [if_pos hk]
      conv_rhs => rw [findEntry]
      rw [if_neg hj]
    · rw [if_neg hk]
      simp only [findEntry, ih]

theorem eraseEntry_of_findEntry_none {k : VoidPtr} {l : List (VoidPtr × shared_ptr)}
    (h : findEntry k l = none) : eraseEntry k l = l := by
  induction l with
  | nil => rfl
  | cons e rest ih =>
    unfold findEntry at h
    unfold eraseEntry
    by_cases hk : e.1 = k
    · simp [hk] at h
    · simp only [hk, if_false] at h
      simp only [hk, if_false, ih h]

theorem mem_of_findEntry_some {k : VoidPtr} {e : shared_ptr} {l : List (VoidPtr × shared_ptr)}
    (h : findEntry k l = some e) : (k, e) ∈ l := by
  induction l with
  | nil => simp [findEntry] at h
  | cons x rest ih =>
    unfold findEntry at h
    by_cases hk : x.1 = k
    · simp only [hk, if_true, Option.some.injEq] at h
      have : x = (k, e) := Prod.ext hk h
      simp [this]
    · simp only [hk, if_false] at h
      exact List.mem_cons_of_mem _ (ih h)

theorem mem_of_mem_eraseEntry {k : VoidPtr} {x : VoidPtr × shared_ptr}
    {l : List (VoidPtr × shared_ptr)} (h : x ∈ eraseEntry k l) : x ∈ l := by
  induction l with
  | nil => simp [eraseEntry] at h
  | cons e rest ih =>
    unfold eraseEntry at h
    by_cases hk : e.1 = k
    · simp only [hk, if_true] at h
      exact List.mem_cons_of_mem _ h
    · simp only [hk, if_false, List.mem_cons] at h
      rcases h with h | h
      · exact h ▸ List.mem_cons_self _ _
      · exact List.mem_cons_of_mem _ (ih h)

namespace HandleTable

theorem find_clear (k : VoidPtr) : clear.find k = none := rfl

theorem find_erase_self (t : HandleTable) (k : VoidPtr) : (t.erase k).find k = none :=
  findEntry_eraseEntry_self k t.nodup

theorem find_erase_ne (t : HandleTable) {k j : VoidPtr} (h : j ≠ k) :
    (t.erase k).find j = t.find j :=
  findEntry_eraseEntry_ne h t.entries

theorem erase_of_find_none {t : HandleTable} {k : VoidPtr} (h : t.find k = none) :
    t.erase k = t :=
  ext_entries (eraseEntry_of_findEntry_none h)

theorem insert_of_find_some {t : HandleTable} {k : VoidPtr} {e : shared_ptr}
    (h : t.find k = some e) (v : shared_ptr) : t.insert k v = t := by
  have h2 : ¬ findEntry k t.entries = none := by
    intro h3
    rw [find, h3] at h
    cases h
  simp [insert, h2]

theorem entries_insert_of_find_none {t : HandleTable} {k : VoidPtr} (h : t.find k = none)
    (v : shared_ptr) : (t.insert k v).entries = (k, v) :: t.entries := by
  have h2 : findEntry k t.entries = none := h
  simp [insert, h2]

theorem find_insert_of_find_none {t : HandleTable} {k : VoidPtr} (h : t.find k = none)
    (v : shared_ptr) : (t.insert k v).find k = some v := by
  simp [find, entries_insert_of_find_none h, findEntry]

theorem find_insert_ne (t : HandleTable) {k j : VoidPtr} (h : j ≠ k) (v : shared_ptr) :
    (t.insert k v).find j = t.find j := by
  cases hf : t.find k with
  | none =>
    have hkj : ¬ k = j := fun h2 => h h2.symm
    simp [find, entries_insert_of_find_none hf, findEntry, hkj]
  | some e => rw [insert_of_find_some hf]

theorem find_insert_of_find_some {t : HandleTable} {j : VoidPtr} {e : shared_ptr}
    (h : t.find j = some e) (k : VoidPtr) (v : shared_ptr) : (t.insert k v).find j = some e := by
  by_cases hjk : j = k
  · subst hjk
    rw [insert_of_find_some h, h]
  · rw [find_insert_ne t hjk, h]

theorem size_insert_of_find_none {t : HandleTable} {k : VoidPtr} (h : t.find k = none)
    (v : shared_ptr) : (t.insert k v).size = t.size + 1 := by
  simp [size, entries_insert_of_find_none h]

theorem keyIsAddr_clear : clear.KeyIsAddr := by
  intro e he
  cases he

theorem KeyIsAddr.erase {t : HandleTable} (h : t.KeyIsAddr) (k : VoidPtr) :
    (t.erase k).KeyIsAddr :=
  fun e he => h e (mem_of_mem_eraseEntry he)

theorem KeyIsAddr.insert {t : HandleTable} (h : t.KeyIsAddr) {k : VoidPtr} {v : shared_ptr}
    (hv : k = v.get) : (t.insert k v).KeyIsAddr := by
  cases hf : t.find k with
  | none =>
    intro e he
    rw [entries_insert_of_find_none hf, List.mem_cons] at he
    rcases he with he | he
    · rw [he]; exact hv
    · exact h e he
  | some e => rw [insert_of_find_some hf]; exact h

theorem KeyIsAddr.get_eq {t : HandleTable} (h : t.KeyIsAddr) {k : VoidPtr} {e : shared_ptr}
    (hf : t.find k = some e) : e.get = k :=
  (h (k, e) (mem_of_findEntry_some hf)).symm

end HandleTable

end HttpClient

/-! ## Lemmas on the operations -/

namespace HttpClient

open shared_ptr_cache

theorem shared_ptr.aliasing_get_self (v : shared_ptr) : shared_ptr.aliasing v v.get = v := rfl

theorem shared_ptr.get_aliasing (v : shared_ptr) (p : VoidPtr) :
    (shared_ptr.aliasing v p).get = p := rfl

theorem store_some (s : http_singleton) (v : shared_ptr) :
    store (some s) v = ⟨v.get, some ⟨s.m_sharedPtrs.insert v.get v⟩, false⟩ := rfl

theorem store_none (v : shared_ptr) : store none v = ⟨nullptr, none, false⟩ := rfl

theorem fetch_none (k : VoidPtr) (d a : Bool) :
    fetch none k d a = ⟨shared_ptr.empty, none, false⟩ := rfl

theorem fetch_some_of_find_some {s : http_singleton} {k : VoidPtr} {e : shared_ptr}
    (h : s.m_sharedPtrs.find k = some e) (d a : Bool) :
    fetch (some s) k d a
      = ⟨e, some (if d then ⟨s.m_sharedPtrs.erase k⟩ else s), false⟩ := by
  cases d <;> simp [fetch, get_http_singleton, h, shared_ptr.aliasing_get_self]

theorem fetch_some_of_find_none {s : http_singleton} {k : VoidPtr}
    (h : s.m_sharedPtrs.find k = none) (d a : Bool) :
    fetch (some s) k d a = ⟨shared_ptr.empty, some s, a⟩ := by
  cases a <;> simp [fetch, get_http_singleton, h]

theorem remove_none (k : VoidPtr) : remove none k = ⟨(), none, false⟩ := rfl

theorem remove_some (s : http_singleton) (k : VoidPtr) :
    remove (some s) k = ⟨(), some ⟨s.m_sharedPtrs.erase k⟩, false⟩ := by
  cases h : s.m_sharedPtrs.find k with
  | none => simp [remove, get_http_singleton, h, HandleTable.erase_of_find_none h]
  | some e => simp [remove, get_http_singleton, h]

theorem HandleTable.size_eq_zero_iff (t : HandleTable) : t.size = 0 ↔ t = HandleTable.clear := by
  constructor
  · intro h
    exact HandleTable.ext_entries (List.length_eq_zero.1 h)
  · intro h
    rw [h]
    rfl

theorem HandleTable.exists_find_iff (t : HandleTable) :
    (∃ k e, t.find k = some e) ↔ t ≠ HandleTable.clear := by
  constructor
  · rintro ⟨k, e, h⟩ hc
    rw [hc] at h
    cases h
  · intro h
    cases t with
    | mk entries nodup =>
      cases entries with
      | nil => exact absurd (HandleTable.ext_entries rfl) h
      | cons x rest => exact ⟨x.1, x.2, by simp [HandleTable.find, findEntry]⟩

end HttpClient

/-! ## The handle table: store, fetch, remove, cleanup -/

namespace HttpClient

open shared_ptr_cache

/-- Claim C1. Round trip of the handle table.  In every state of a live singleton in which each
key is the address of its entry (every reachable state is one, see `Reachable.keyIsAddr`) and
for every value `v`: the deleting fetch of the identity that `store v` returned finds an entry,
does not assert, and returns a reference whose address is the address of `v` (the reference `v`
itself when that address was not a key before); a fetch of the same identity right after, with
`assertIfNotFound = false`, returns the empty reference without asserting and without changing
the table. -/
theorem fetch_store_round_trip (s : http_singleton) (v : shared_ptr)
    (assertIfNotFound deleteShared : Bool) (hinv : s.m_sharedPtrs.KeyIsAddr) :
    (fetch (store (some s) v).state (store (some s) v).ret true assertIfNotFound).ret.get = v.get
    ∧ (fetch (store (some s) v).state (store (some s) v).ret true assertIfNotFound).asserted
        = false
    ∧ (s.m_sharedPtrs.find v.get = none →
        (fetch (store (some s) v).state (store (some s) v).ret true assertIfNotFound).ret = v)
    ∧ fetch (fetch (store (some s) v).state (store (some s) v).ret true assertIfNotFound).state
          (store (some s) v).ret deleteShared false
        = ⟨shared_ptr.empty,
            (fetch (store (some s) v).state (store (some s) v).ret true assertIfNotFound).state,
            false⟩ := by
  rw [store_some]
  have hinv2 : (s.m_sharedPtrs.insert v.get v).KeyIsAddr := hinv.insert rfl
  cases hf : s.m_sharedPtrs.find v.get with
  | none =>
    have h1 := HandleTable.find_insert_of_find_none hf v
    have hs : (⟨s.m_sharedPtrs.insert v.get v⟩ : http_singleton).m_sharedPtrs.find v.get
        = some v := h1
    rw [fetch_some_of_find_some hs]
    refine ⟨rfl, rfl, fun _ => rfl, ?_⟩
    exact fetch_some_of_find_none (HandleTable.find_erase_self _ _) _ _
  | some e =>
    have h1 := HandleTable.find_insert_of_find_some hf v.get v
    have hs : (⟨s.m_sharedPtrs.insert v.get v⟩ : http_singleton).m_sharedPtrs.find v.get
        = some e := h1
    rw [fetch_some_of_find_some hs]
    refine ⟨hinv.get_eq hf, rfl, (fun h => by cases h), ?_⟩
    exact fetch_some_of_find_none (HandleTable.find_erase_self _ _) _ _

/-- Witness of C1: the round trip of the value at address `48` through a table that already
holds an entry. -/
theorem fetch_store_round_trip_witness :
    tableOne.m_sharedPtrs.KeyIsAddr
    ∧ (fetch (store (some tableOne) ⟨some 3, 48⟩).state (store (some tableOne) ⟨some 3, 48⟩).ret
        true true).ret.get = 48
    ∧ (fetch (fetch (store (some tableOne) ⟨some 3, 48⟩).state
          (store (some tableOne) ⟨some 3, 48⟩).ret true true).state
        (store (some tableOne) ⟨some 3, 48⟩).ret true false).ret = shared_ptr.empty :=
  ⟨by decide,
    (fetch_store_round_trip tableOne ⟨some 3, 48⟩ true true (by decide)).1,
    by rw [(fetch_store_round_trip tableOne ⟨some 3, 48⟩ true true (by decide)).2.2.2]⟩

/-- Claim C2. Non-deleting fetch.  For every state of a live singleton and every identity
present in the table, `fetch(id, deleteShared = false)` returns the stored reference, does not
assert and leaves the whole state as it was, so a second such fetch gives the same outcome. -/
theorem fetch_keep_is_repeatable (s : http_singleton) (id : VoidPtr) (e : shared_ptr)
    (assertIfNotFound : Bool) (hfound : s.m_sharedPtrs.find id = some e) :
    fetch (some s) id false assertIfNotFound = ⟨e, some s, false⟩
    ∧ fetch (fetch (some s) id false assertIfNotFound).state id false assertIfNotFound
        = fetch (some s) id false assertIfNotFound := by
  have h := fetch_some_of_find_some hfound false assertIfNotFound
  simp only [Bool.false_eq_true, if_false] at h
  rw [h]
  exact ⟨rfl, h⟩

/-- Witness of C2: the entry under `16` of a two-entry table. -/
theorem fetch_keep_is_repeatable_witness :
    tableTwo.m_sharedPtrs.find 16 = some ⟨some 1, 16⟩
    ∧ fetch (some tableTwo) 16 false true = ⟨⟨some 1, 16⟩, some tableTwo, false⟩
    ∧ fetch (fetch (some tableTwo) 16 false true).state 16 false true
        = fetch (some tableTwo) 16 false true :=
  ⟨by decide, fetch_keep_is_repeatable tableTwo 16 ⟨some 1, 16⟩ true (by decide)⟩

/-- Counterexample to C3 as stated.  The table that `store` builds from the empty one for a
reference with control block `1` and address `16` keeps that entry when a reference with
control block `2` and the same address is stored: the entry under the returned identity does
not share ownership with the value passed in. -/
theorem store_shares_ownership_counterexample :
    (store (some ⟨HandleTable.clear⟩) ⟨some 1, 16⟩).state = some tableOne
    ∧ (store (some tableOne) ⟨some 2, 16⟩).ret = 16
    ∧ entryAt (store (some tableOne) ⟨some 2, 16⟩).state 16 = some ⟨some 1, 16⟩
    ∧ ¬ shared_ptr.sharesOwnership ⟨some 1, 16⟩ ⟨some 2, 16⟩ := by
  decide

/-- Claim C3, amended.  In every state of a live singleton in which each key is the address of
its entry, `store v` returns the address of `v` without asserting, and afterwards the table
holds under that identity an entry that points to the address of `v`.  If the identity was not
a key before, that entry is `v` re-typed, so it shares ownership with `v`; if it was a key, the
table is unchanged and the entry is the one that was there. -/
theorem store_registers_under_address (s : http_singleton) (v : shared_ptr)
    (hinv : s.m_sharedPtrs.KeyIsAddr) :
    (store (some s) v).ret = v.get
    ∧ (store (some s) v).asserted = false
    ∧ (∃ e, entryAt (store (some s) v).state v.get = some e
        ∧ e.get = v.get
        ∧ (s.m_sharedPtrs.find v.get = none → e = v ∧ e.sharesOwnership v)
        ∧ (∀ e0, s.m_sharedPtrs.find v.get = some e0 →
            e = e0 ∧ (store (some s) v).state = some s)) := by
  rw [store_some]
  refine ⟨rfl, rfl, ?_⟩
  cases hf : s.m_sharedPtrs.find v.get with
  | none =>
    refine ⟨v, HandleTable.find_insert_of_find_none hf v, rfl, fun _ => ⟨rfl, rfl⟩, ?_⟩
    intro e0 h0
    cases h0
  | some e =>
    refine ⟨e, ?_, hinv.get_eq hf, (fun h => by cases h), ?_⟩
    · exact HandleTable.find_insert_of_find_some hf v.get v
    · intro e0 h0
      cases h0
      exact ⟨rfl, by rw [HandleTable.insert_of_find_some hf]⟩

/-- Witness of C3 amended: a fresh address stored into a one-entry table. -/
theorem store_registers_under_address_witness :
    tableOne.m_sharedPtrs.KeyIsAddr
    ∧ (store (some tableOne) ⟨some 2, 32⟩).ret = 32
    ∧ (store (some tableOne) ⟨some 2, 32⟩).asserted = false :=
  ⟨by decide,
    (store_registers_under_address tableOne ⟨some 2, 32⟩ (by decide)).1,
    (store_registers_under_address tableOne ⟨some 2, 32⟩ (by decide)).2.1⟩

/-- Claim C4. Miss handling of fetch.  For every state of a live singleton, every identity and
all flags, `fetch` reaches the failing `ASSERT` exactly when the identity is absent from the
table and `assertIfNotFound` is set; on an absent identity with `assertIfNotFound = false` it
returns the empty reference and leaves the state unchanged. -/
theorem fetch_asserts_iff_missing (s : http_singleton) (id : VoidPtr)
    (deleteShared assertIfNotFound : Bool) :
    ((fetch (some s) id deleteShared assertIfNotFound).asserted = true
        ↔ (s.m_sharedPtrs.find id = none ∧ assertIfNotFound = true))
    ∧ (s.m_sharedPtrs.find id = none →
        fetch (some s) id deleteShared false = ⟨shared_ptr.empty, some s, false⟩) := by
  constructor
  · cases hf : s.m_sharedPtrs.find id with
    | none => rw [fetch_some_of_find_none hf]; simp
    | some e => rw [fetch_some_of_find_some hf]; simp
  · intro hf
    exact fetch_some_of_find_none hf _ _

/-- Witness of C4: the identity `7` is absent from a two-entry table. -/
theorem fetch_asserts_iff_missing_witness :
    tableTwo.m_sharedPtrs.find 7 = none
    ∧ (fetch (some tableTwo) 7 true true).asserted = true
    ∧ fetch (some tableTwo) 7 true false = ⟨shared_ptr.empty, some tableTwo, false⟩ :=
  ⟨by decide,
    (fetch_asserts_iff_missing tableTwo 7 true true).1.2 ⟨by decide, rfl⟩,
    (fetch_asserts_iff_missing tableTwo 7 true true).2 (by decide)⟩

/-- Claim C5. Teardown invariant.  For every singleton, `cleanup` reaches the failing `ASSERT`
exactly when `m_sharedPtrs` is not empty, that is, when some identity still has an entry; on
the empty table it does not assert. -/
theorem cleanup_asserts_iff_nonempty (s : http_singleton) :
    ((cleanup s).asserted = true ↔ s.m_sharedPtrs.size ≠ 0)
    ∧ ((cleanup s).asserted = true ↔ ∃ k e, s.m_sharedPtrs.find k = some e)
    ∧ (cleanup ⟨HandleTable.clear⟩).asserted = false := by
  have h1 : (cleanup s).asserted = true ↔ s.m_sharedPtrs.size ≠ 0 := by
    simp [cleanup]
  refine ⟨h1, ?_, rfl⟩
  rw [h1, HandleTable.exists_find_iff, Ne, HandleTable.size_eq_zero_iff]

/-- Claim C6. Soft failure of store.  For every value, with no live singleton `store` returns
the null identity, leaves the slot empty (nothing is stored) and does not assert. -/
theorem store_without_singleton (v : shared_ptr) :
    store none v = ⟨nullptr, none, false⟩ := rfl

/-- Claim C7. Remove drops the entry.  For every state of a live singleton and every identity:
`remove` does not assert and keeps the singleton; afterwards the identity has no entry, and a
fetch of it with `assertIfNotFound = false` returns the empty reference; if the identity had no
entry before, the state is unchanged; a second `remove` of the same identity changes nothing
more. -/
theorem remove_drops_entry (s : http_singleton) (id : VoidPtr) (deleteShared : Bool) :
    (remove (some s) id).asserted = false
    ∧ (∃ s1, (remove (some s) id).state = some s1 ∧ s1.m_sharedPtrs.find id = none)
    ∧ fetch (remove (some s) id).state id deleteShared false
        = ⟨shared_ptr.empty, (remove (some s) id).state, false⟩
    ∧ (s.m_sharedPtrs.find id = none → (remove (some s) id).state = some s)
    ∧ (remove (remove (some s) id).state id).state = (remove (some s) id).state := by
  rw [remove_some]
  have hgone : (⟨s.m_sharedPtrs.erase id⟩ : http_singleton).m_sharedPtrs.find id = none :=
    HandleTable.find_erase_self _ _
  refine ⟨rfl, ⟨_, rfl, hgone⟩, fetch_some_of_find_none hgone _ _, ?_, ?_⟩
  · intro h
    rw [HandleTable.erase_of_find_none h]
  · rw [remove_some]
    show some (⟨(s.m_sharedPtrs.erase id).erase id⟩ : http_singleton) = _
    rw [HandleTable.erase_of_find_none (HandleTable.find_erase_self _ _)]

/-- Witness of C7: removing `16` from a two-entry table, and removing the absent `7`. -/
theorem remove_drops_entry_witness :
    tableTwo.m_sharedPtrs.find 7 = none
    ∧ (remove (some tableTwo) 7).state = some tableTwo
    ∧ entryAt (remove (some tableTwo) 16).state 16 = none
    ∧ entryAt (remove (some tableTwo) 16).state 32 = some ⟨some 2, 32⟩ :=
  ⟨by decide, (remove_drops_entry tableTwo 7 true).2.2.2.1 (by decide), by decide, by decide⟩

/-- Claim C8. Deleting fetch is "take".  For every state and every identity (in particular for
a live singleton and an identity present in the table), `fetch(id, deleteShared = true)` has
the outcome of a non-deleting fetch followed by `remove(id)`: the same returned reference as
`fetch(id, deleteShared = false)` and the same state as `remove(id)` leaves. -/
theorem fetch_delete_eq_take (g : Option http_singleton) (id : VoidPtr)
    (assertIfNotFound : Bool) :
    fetch g id true assertIfNotFound = take g id assertIfNotFound
    ∧ (fetch g id true assertIfNotFound).ret = (fetch g id false assertIfNotFound).ret
    ∧ (fetch g id true assertIfNotFound).state = (remove g id).state := by
  cases g with
  | none => exact ⟨rfl, rfl, rfl⟩
  | some s =>
    cases hf : s.m_sharedPtrs.find id with
    | none =>
      simp only [take]
      rw [fetch_some_of_find_none hf, fetch_some_of_find_none hf, remove_some,
        HandleTable.erase_of_find_none hf]
      simp
    | some e =>
      simp only [take]
      rw [fetch_some_of_find_some hf, fetch_some_of_find_some hf]
      simp only [Bool.false_eq_true, if_false, if_true]
      rw [remove_some]
      simp

/-- Claim C10. The retry-after record.  The default-constructed `http_retry_after_api_state`
has `statusCode = 0` and a default (epoch, zero ticks) `retryAfterTime`; the two-argument
constructor yields the record whose `retryAfterTime` and `statusCode` are its arguments. -/
theorem retry_after_state_constructors :
    http_retry_after_api_state.ctor0.statusCode = 0
    ∧ http_retry_after_api_state.ctor0.retryAfterTime = time_point.default
    ∧ http_retry_after_api_state.ctor0.retryAfterTime.time_since_epoch = 0
    ∧ ∀ (t : time_point) (c : uint32_t),
        (http_retry_after_api_state.ctor2 t c).retryAfterTime = t
        ∧ (http_retry_after_api_state.ctor2 t c).statusCode = c :=
  ⟨rfl, rfl, rfl, fun _ _ => ⟨rfl, rfl⟩⟩

end HttpClient

/-! ## Sequences of stores and reachable states -/

namespace HttpClient

open shared_ptr_cache

theorem storeAll_cons (g : Option http_singleton) (v : shared_ptr) (vs : List shared_ptr) :
    storeAll g (v :: vs)
      = ⟨(store g v).ret :: (storeAll (store g v).state vs).ret,
          (storeAll (store g v).state vs).state,
          (store g v).asserted || (storeAll (store g v).state vs).asserted⟩ := rfl

theorem storeAll_ret (s : http_singleton) (vs : List shared_ptr) :
    (storeAll (some s) vs).ret = vs.map shared_ptr.get
      ∧ (storeAll (some s) vs).asserted = false := by
  induction vs generalizing s with
  | nil => exact ⟨rfl, rfl⟩
  | cons v vs ih =>
    rw [storeAll_cons, store_some]
    simp only [List.map_cons]
    rw [(ih _).1, (ih _).2]
    exact ⟨rfl, rfl⟩

theorem storeAll_state (s : http_singleton) (vs : List shared_ptr) :
    ∃ s1 : http_singleton, (storeAll (some s) vs).state = some s1
      ∧ (s.m_sharedPtrs.KeyIsAddr → s1.m_sharedPtrs.KeyIsAddr)
      ∧ (∀ j e, s.m_sharedPtrs.find j = some e → s1.m_sharedPtrs.find j = some e)
      ∧ (∀ v ∈ vs, ∃ e, s1.m_sharedPtrs.find v.get = some e)
      ∧ ((vs.map shared_ptr.get).Nodup →
          ∀ v ∈ vs, s.m_sharedPtrs.find v.get = none → s1.m_sharedPtrs.find v.get = some v) := by
  induction vs generalizing s with
  | nil =>
    refine ⟨s, rfl, id, fun _ _ h => h, ?_, ?_⟩
    · intro v hv
      cases hv
    · intro _ v hv
      cases hv
  | cons w ws ih =>
    rw [storeAll_cons, store_some]
    obtain ⟨s1, hs1, hk, hkeep, hall, hnew⟩ := ih ⟨s.m_sharedPtrs.insert w.get w⟩
    have hw : ∃ e, (s.m_sharedPtrs.insert w.get w).find w.get = some e := by
      cases hf : s.m_sharedPtrs.find w.get with
      | none => exact ⟨w, HandleTable.find_insert_of_find_none hf w⟩
      | some e => exact ⟨e, HandleTable.find_insert_of_find_some hf _ _⟩
    refine ⟨s1, hs1, fun h => hk (h.insert rfl), ?_, ?_, ?_⟩
    · intro j e hj
      exact hkeep j e (HandleTable.find_insert_of_find_some hj _ _)
    · intro v hv
      rcases List.mem_cons.1 hv with hv | hv
      · subst hv
        obtain ⟨e, he⟩ := hw
        exact ⟨e, hkeep _ _ he⟩
      · exact hall v hv
    · intro hnd v hv hnone
      simp only [List.map_cons, List.nodup_cons] at hnd
      rcases List.mem_cons.1 hv with hv | hv
      · subst hv
        exact hkeep _ _ (HandleTable.find_insert_of_find_none hnone v)
      · have hne : v.get ≠ w.get := by
          intro h
          exact hnd.1 (h ▸ List.mem_map_of_mem shared_ptr.get hv)
        apply hnew hnd.2 v hv
        show (s.m_sharedPtrs.insert w.get w).find v.get = none
        rw [HandleTable.find_insert_ne _ hne, hnone]

theorem fetchAll_cons (g : Option http_singleton) (d a : Bool) (k : VoidPtr)
    (ks : List VoidPtr) :
    fetchAll g d a (k :: ks)
      = ⟨(fetch g k d a).ret :: (fetchAll (fetch g k d a).state d a ks).ret,
          (fetchAll (fetch g k d a).state d a ks).state,
          (fetch g k d a).asserted || (fetchAll (fetch g k d a).state d a ks).asserted⟩ := rfl

theorem fetchAll_objects (d a : Bool) (order : List shared_ptr) (s : http_singleton)
    (hnd : (order.map shared_ptr.get).Nodup)
    (hall : ∀ v ∈ order, ∃ e, s.m_sharedPtrs.find v.get = some e ∧ e.get = v.get) :
    (fetchAll (some s) d a (order.map shared_ptr.get)).asserted = false
      ∧ (fetchAll (some s) d a (order.map shared_ptr.get)).ret.map shared_ptr.get
          = order.map shared_ptr.get
      ∧ ((∀ v ∈ order, s.m_sharedPtrs.find v.get = some v) →
          (fetchAll (some s) d a (order.map shared_ptr.get)).ret = order) := by
  induction order generalizing s with
  | nil => exact ⟨rfl, rfl, fun _ => rfl⟩
  | cons v vs ih =>
    simp only [List.map_cons, List.nodup_cons] at hnd
    obtain ⟨e, he, hget⟩ := hall v (List.mem_cons_self _ _)
    have hne : ∀ w ∈ vs, w.get ≠ v.get := by
      intro w hw h
      exact hnd.1 (h ▸ List.mem_map_of_mem shared_ptr.get hw)
    have hsame : ∀ w ∈ vs,
        (if d then (⟨s.m_sharedPtrs.erase v.get⟩ : http_singleton) else s).m_sharedPtrs.find w.get
          = s.m_sharedPtrs.find w.get := by
      intro w hw
      cases d
      · rfl
      · exact HandleTable.find_erase_ne _ (hne w hw)
    have hall2 : ∀ w ∈ vs, ∃ e1,
        (if d then (⟨s.m_sharedPtrs.erase v.get⟩ : http_singleton) else s).m_sharedPtrs.find w.get
          = some e1 ∧ e1.get = w.get := by
      intro w hw
      rw [hsame w hw]
      exact hall w (List.mem_cons_of_mem _ hw)
    obtain ⟨h1, h2, h3⟩ := ih _ hnd.2 hall2
    simp only [List.map_cons]
    rw [fetchAll_cons, fetch_some_of_find_some he]
    refine ⟨?_, ?_, ?_⟩
    · simp only [h1, Bool.or_self]
    · simp only [List.map_cons, h2, hget]
    · intro hown
      have hev : e = v := by
        have := hown v (List.mem_cons_self _ _)
        rw [he] at this
        exact Option.some.inj this
      have hrest := h3 (fun w hw => by
        rw [hsame w hw]
        exact hown w (List.mem_cons_of_mem _ hw))
      simp only [hrest, hev]

theorem fst_eq_of_mem_zip_map (vs : List shared_ptr) (p : VoidPtr × shared_ptr)
    (hp : p ∈ List.zip (vs.map shared_ptr.get) vs) : p.1 = p.2.get ∧ p.2 ∈ vs := by
  induction vs with
  | nil => simp at hp
  | cons v vs ih =>
    simp only [List.map_cons, List.zip_cons_cons, List.mem_cons] at hp
    rcases hp with hp | hp
    · subst hp
      exact ⟨rfl, List.mem_cons_self _ _⟩
    · exact ⟨(ih hp).1, List.mem_cons_of_mem _ (ih hp).2⟩

theorem SlotKeyIsAddr.apply {g : Option http_singleton} (h : SlotKeyIsAddr g) (op : Op) :
    SlotKeyIsAddr (Op.apply g op) := by
  cases g with
  | none =>
    cases op <;> (intro s hs; cases hs)
  | some s0 =>
    have h0 : s0.m_sharedPtrs.KeyIsAddr := h s0 rfl
    cases op with
    | store v =>
      intro s hs
      simp only [Op.apply, store_some, Option.some.injEq] at hs
      subst hs
      exact h0.insert rfl
    | fetch k d a =>
      intro s hs
      cases hf : s0.m_sharedPtrs.find k with
      | none =>
        simp only [Op.apply, fetch_some_of_find_none hf, Option.some.injEq] at hs
        subst hs
        exact h0
      | some e =>
        simp only [Op.apply, fetch_some_of_find_some hf, Option.some.injEq] at hs
        subst hs
        cases d
        · exact h0
        · exact h0.erase k
    | remove k =>
      intro s hs
      simp only [Op.apply, remove_some, Option.some.injEq] at hs
      subst hs
      exact h0.erase k
    | cleanup =>
      intro s hs
      simp only [Op.apply, cleanup, Option.some.injEq] at hs
      subst hs
      exact HandleTable.keyIsAddr_clear

theorem SlotKeyIsAddr.foldl (ops : List Op) {g : Option http_singleton} (h : SlotKeyIsAddr g) :
    SlotKeyIsAddr (ops.foldl Op.apply g) := by
  induction ops generalizing g with
  | nil => exact h
  | cons op ops ih => exact ih (h.apply op)

/-- In every reachable state each key of `m_sharedPtrs` is the address of its entry. -/
theorem Reachable.keyIsAddr {s : http_singleton} (h : Reachable s) :
    s.m_sharedPtrs.KeyIsAddr := by
  obtain ⟨ops, hops⟩ := h
  have h0 : SlotKeyIsAddr (some ⟨HandleTable.clear⟩) := by
    intro s hs
    cases hs
    exact HandleTable.keyIsAddr_clear
  exact SlotKeyIsAddr.foldl ops h0 s hops

/-- Claim C9. Store uniqueness, no lost entries.  In every state of a live singleton in which
each key is the address of its entry (every reachable state is one), for every list of non-null
references with pairwise distinct addresses, taken in the order in which the stores happen (each
store is one atomic step, so any interleaving is such an order): no store asserts, the stores
return as many identities as there are references, and the identities are pairwise distinct and
non-null.  Afterwards a fetch of each identity, whatever its flags, does not assert and returns
a non-empty reference to the address of the object the identity was returned for (that very
reference when its address was not a key of the table before).  The same holds when all the
identities are fetched one after the other, in any order, with or without deletion. -/
theorem store_all_distinct_fetchable (s : http_singleton) (vs : List shared_ptr)
    (hinv : s.m_sharedPtrs.KeyIsAddr)
    (hnonnull : ∀ v ∈ vs, v.get ≠ nullptr)
    (hdistinct : (vs.map shared_ptr.get).Nodup) :
    (storeAll (some s) vs).asserted = false
    ∧ (storeAll (some s) vs).ret.length = vs.length
    ∧ (storeAll (some s) vs).ret.Nodup
    ∧ (∀ id ∈ (storeAll (some s) vs).ret, id ≠ nullptr)
    ∧ (∀ p ∈ List.zip (storeAll (some s) vs).ret vs, ∀ deleteShared assertIfNotFound : Bool,
        (fetch (storeAll (some s) vs).state p.1 deleteShared assertIfNotFound).asserted = false
        ∧ (fetch (storeAll (some s) vs).state p.1 deleteShared assertIfNotFound).ret.get
            = p.2.get
        ∧ (fetch (storeAll (some s) vs).state p.1 deleteShared assertIfNotFound).ret
            ≠ shared_ptr.empty
        ∧ (s.m_sharedPtrs.find p.2.get = none →
            (fetch (storeAll (some s) vs).state p.1 deleteShared assertIfNotFound).ret = p.2))
    ∧ (∀ order : List shared_ptr, order.Perm vs → ∀ deleteShared assertIfNotFound : Bool,
        (fetchAll (storeAll (some s) vs).state deleteShared assertIfNotFound
            (order.map shared_ptr.get)).asserted = false
        ∧ (fetchAll (storeAll (some s) vs).state deleteShared assertIfNotFound
            (order.map shared_ptr.get)).ret.map shared_ptr.get = order.map shared_ptr.get
        ∧ ((∀ v ∈ vs, s.m_sharedPtrs.find v.get = none) →
            (fetchAll (storeAll (some s) vs).state deleteShared assertIfNotFound
              (order.map shared_ptr.get)).ret = order)) := by
  rw [(storeAll_ret s vs).1]
  obtain ⟨s1, hs1, hk, _, hall, hnew⟩ := storeAll_state s vs
  rw [hs1]
  refine ⟨(storeAll_ret s vs).2, List.length_map _ _, hdistinct, ?_, ?_, ?_⟩
  · intro id hid
    obtain ⟨v, hv, rfl⟩ := List.mem_map.1 hid
    exact hnonnull v hv
  · intro p hp d a
    obtain ⟨hp1, hp2⟩ := fst_eq_of_mem_zip_map vs p hp
    obtain ⟨e, he⟩ := hall p.2 hp2
    rw [hp1, fetch_some_of_find_some he]
    have hget : e.get = p.2.get := (hk hinv).get_eq he
    refine ⟨rfl, hget, ?_, ?_⟩
    · intro hempty
      have h2 : e = shared_ptr.empty := hempty
      rw [h2] at hget
      exact hnonnull p.2 hp2 hget.symm
    · intro hnone
      have h3 := hnew hdistinct p.2 hp2 hnone
      rw [he] at h3
      exact Option.some.inj h3
  · intro order hperm d a
    have hnd : (order.map shared_ptr.get).Nodup :=
      ((hperm.map shared_ptr.get).nodup_iff).2 hdistinct
    have hpres : ∀ v ∈ order, ∃ e, s1.m_sharedPtrs.find v.get = some e ∧ e.get = v.get := by
      intro v hv
      obtain ⟨e, he⟩ := hall v (hperm.mem_iff.1 hv)
      exact ⟨e, he, (hk hinv).get_eq he⟩
    obtain ⟨h1, h2, h3⟩ := fetchAll_objects d a order s1 hnd hpres
    refine ⟨h1, h2, fun hfresh => h3 ?_⟩
    intro v hv
    have hv2 := hperm.mem_iff.1 hv
    exact hnew hdistinct v hv2 (hfresh v hv2)

/-- Witness of C9: two objects at the addresses `48` and `32` stored into a table that holds
an entry under `16`. -/
theorem store_all_distinct_fetchable_witness :
    tableOne.m_sharedPtrs.KeyIsAddr
    ∧ (∀ v ∈ [(⟨some 3, 48⟩ : shared_ptr), ⟨some 2, 32⟩], v.get ≠ nullptr)
    ∧ (List.map shared_ptr.get [(⟨some 3, 48⟩ : shared_ptr), ⟨some 2, 32⟩]).Nodup
    ∧ (storeAll (some tableOne) [⟨some 3, 48⟩, ⟨some 2, 32⟩]).ret = [48, 32]
    ∧ (storeAll (some tableOne) [⟨some 3, 48⟩, ⟨some 2, 32⟩]).ret.Nodup
    ∧ (fetchAll (storeAll (some tableOne) [⟨some 3, 48⟩, ⟨some 2, 32⟩]).state true true
        [32, 48]).ret = [⟨some 2, 32⟩, ⟨some 3, 48⟩] :=
  ⟨by decide, by decide, by decide, by decide,
    (store_all_distinct_fetchable tableOne [⟨some 3, 48⟩, ⟨some 2, 32⟩]
      (by decide) (by decide) (by decide)).2.2.1,
    by decide⟩

end HttpClient

/-! ## Teardown, the key invariant, re-store, frame, missing singleton, null values -/

namespace HttpClient

open shared_ptr_cache

/-- Claim C11. Drain postcondition.  For every singleton, when `cleanup` runs to its end (the
outcome past the `ASSERT`, which is reached when the table was empty or the `ASSERT` is
compiled out) the table `m_sharedPtrs` is empty, and every later fetch with
`assertIfNotFound = false`, of any identity and with either value of `deleteShared`, returns the
empty reference without asserting and leaves the table empty; the same holds if the slot has
no singleton any more. -/
theorem cleanup_leaves_table_empty (s : http_singleton) (id : VoidPtr) (deleteShared : Bool) :
    (cleanup s).state = some ⟨HandleTable.clear⟩
    ∧ entryAt (cleanup s).state id = none
    ∧ fetch (cleanup s).state id deleteShared false
        = ⟨shared_ptr.empty, some ⟨HandleTable.clear⟩, false⟩
    ∧ fetch none id deleteShared false = ⟨shared_ptr.empty, none, false⟩ := by
  have h : (cleanup s).state = some ⟨HandleTable.clear⟩ := rfl
  rw [h]
  refine ⟨rfl, rfl, ?_, rfl⟩
  exact fetch_some_of_find_none (HandleTable.find_clear id) deleteShared false

/-- Claim C12. Key-equals-address invariant.  In every table reached from the empty one by a
sequence of `store`, `fetch`, `remove` and `cleanup` calls, each key is the address held by the
reference stored under it; hence every fetch that finds its identity returns, without
asserting, the stored reference, whose address is that identity. -/
theorem reachable_key_is_address (s : http_singleton) (hreach : Reachable s) :
    (∀ e ∈ s.m_sharedPtrs.entries, e.1 = e.2.get)
    ∧ ∀ (id : VoidPtr) (e : shared_ptr) (deleteShared assertIfNotFound : Bool),
        s.m_sharedPtrs.find id = some e →
          (fetch (some s) id deleteShared assertIfNotFound).ret = e
          ∧ (fetch (some s) id deleteShared assertIfNotFound).ret.get = id
          ∧ (fetch (some s) id deleteShared assertIfNotFound).asserted = false := by
  have hinv : s.m_sharedPtrs.KeyIsAddr := Reachable.keyIsAddr hreach
  refine ⟨hinv, ?_⟩
  intro id e d a hf
  rw [fetch_some_of_find_some hf]
  exact ⟨rfl, hinv.get_eq hf, rfl⟩

/-- Witness of C12: the two-entry table is reached by two stores, and the fetch of `16` returns
a reference to `16`. -/
theorem reachable_key_is_address_witness :
    Reachable tableTwo
    ∧ (fetch (some tableTwo) 16 true true).ret.get = 16 :=
  ⟨⟨[Op.store ⟨some 1, 16⟩, Op.store ⟨some 2, 32⟩], by decide⟩,
    ((reachable_key_is_address tableTwo
      ⟨[Op.store ⟨some 1, 16⟩, Op.store ⟨some 2, 32⟩], by decide⟩).2
        16 ⟨some 1, 16⟩ true true (by decide)).2.1⟩

/-- Claim C13. Re-store does not overwrite or count.  For every state of a live singleton and
every value whose address already is a key of the table, `store` returns that address, does
not assert and leaves the state exactly as it was, the existing entry included.  Hence for
every value `v`, a second `store v` right after the first leaves the state of the first, and
one `remove`, or one deleting fetch, afterwards makes the identity absent. -/
theorem store_again_keeps_table (s : http_singleton) (v : shared_ptr)
    (assertIfNotFound : Bool) :
    (∀ e, s.m_sharedPtrs.find v.get = some e →
        store (some s) v = ⟨v.get, some s, false⟩
        ∧ entryAt (store (some s) v).state v.get = some e)
    ∧ store (store (some s) v).state v = ⟨v.get, (store (some s) v).state, false⟩
    ∧ entryAt (remove (store (store (some s) v).state v).state v.get).state v.get = none
    ∧ entryAt (fetch (store (store (some s) v).state v).state v.get true
        assertIfNotFound).state v.get = none
    ∧ (fetch (store (store (some s) v).state v).state v.get true assertIfNotFound).asserted
        = false := by
  have hkeep : ∀ (t : http_singleton) (e : shared_ptr), t.m_sharedPtrs.find v.get = some e →
      store (some t) v = ⟨v.get, some t, false⟩ := by
    intro t e he
    rw [store_some, HandleTable.insert_of_find_some he]
  obtain ⟨e1, he1⟩ : ∃ e1, (s.m_sharedPtrs.insert v.get v).find v.get = some e1 := by
    cases hf : s.m_sharedPtrs.find v.get with
    | none => exact ⟨v, HandleTable.find_insert_of_find_none hf v⟩
    | some e => exact ⟨e, HandleTable.find_insert_of_find_some hf _ _⟩
  have hs1 : (⟨s.m_sharedPtrs.insert v.get v⟩ : http_singleton).m_sharedPtrs.find v.get
      = some e1 := he1
  refine ⟨?_, ?_, ?_, ?_, ?_⟩
  · intro e he
    rw [hkeep s e he]
    exact ⟨rfl, he⟩
  · rw [store_some]
    exact hkeep _ e1 hs1
  · rw [store_some, hkeep _ e1 hs1, remove_some]
    exact HandleTable.find_erase_self _ _
  · rw [store_some, hkeep _ e1 hs1, fetch_some_of_find_some hs1]
    exact HandleTable.find_erase_self _ _
  · rw [store_some, hkeep _ e1 hs1, fetch_some_of_find_some hs1]

/-- Witness of C13: a reference with another control block stored under the address `16`,
which the one-entry table already holds. -/
theorem store_again_keeps_table_witness :
    tableOne.m_sharedPtrs.find 16 = some ⟨some 1, 16⟩
    ∧ store (some tableOne) ⟨some 2, 16⟩ = ⟨16, some tableOne, false⟩
    ∧ entryAt (store (some tableOne) ⟨some 2, 16⟩).state 16 = some ⟨some 1, 16⟩ :=
  ⟨by decide,
    (store_again_keeps_table tableOne ⟨some 2, 16⟩ true).1 ⟨some 1, 16⟩ (by decide)⟩

/-- Claim C14. Other identities are untouched.  For every state of a live singleton and all
distinct identities `id` and `j`: the store of a value with address `id`, the fetch of `id`
with `assertIfNotFound = false` (deleting or not) and the removal of `id` each leave the
presence and the stored entry of `j` as they were. -/
theorem other_identity_untouched (s : http_singleton) (id j : VoidPtr) (v : shared_ptr)
    (deleteShared : Bool) (hne : j ≠ id) (hv : v.get = id) :
    entryAt (store (some s) v).state j = s.m_sharedPtrs.find j
    ∧ entryAt (fetch (some s) id deleteShared false).state j = s.m_sharedPtrs.find j
    ∧ entryAt (remove (some s) id).state j = s.m_sharedPtrs.find j := by
  refine ⟨?_, ?_, ?_⟩
  · rw [store_some, hv]
    exact HandleTable.find_insert_ne _ hne _
  · cases hf : s.m_sharedPtrs.find id with
    | none =>
      rw [fetch_some_of_find_none hf]
      rfl
    | some e =>
      rw [fetch_some_of_find_some hf]
      cases deleteShared
      · rfl
      · exact HandleTable.find_erase_ne _ hne
  · rw [remove_some]
    exact HandleTable.find_erase_ne _ hne

/-- Witness of C14: the entry under `32` of the two-entry table while `16` is stored again,
fetched with deletion and removed. -/
theorem other_identity_untouched_witness :
    (32 : VoidPtr) ≠ 16
    ∧ shared_ptr.get ⟨some 1, 16⟩ = 16
    ∧ entryAt (store (some tableTwo) ⟨some 1, 16⟩).state 32 = some ⟨some 2, 32⟩
    ∧ entryAt (fetch (some tableTwo) 16 true false).state 32 = some ⟨some 2, 32⟩
    ∧ entryAt (remove (some tableTwo) 16).state 32 = some ⟨some 2, 32⟩ :=
  ⟨by decide, rfl,
    other_identity_untouched tableTwo 16 32 ⟨some 1, 16⟩ true (by decide) rfl⟩

/-- Claim C15. No singleton means silent miss.  With no live singleton, for every identity and
all values of `deleteShared` and `assertIfNotFound` (also `assertIfNotFound = true`), `fetch`
returns the empty reference without reaching the `ASSERT`, and `remove` returns without any
effect: the slot stays empty. -/
theorem no_singleton_silent_miss (id : VoidPtr) (deleteShared assertIfNotFound : Bool) :
    fetch none id deleteShared assertIfNotFound = ⟨shared_ptr.empty, none, false⟩
    ∧ remove none id = ⟨(), none, false⟩ :=
  ⟨rfl, rfl⟩

/-- Claim C16. Null value edge case.  For every state of a live singleton without an entry
under the null identity and every reference whose address is null (the empty reference is
one): `store` returns the null identity, as it does when there is no singleton, yet puts the
reference into the table under the null key, so the size grows by one and `cleanup` of the
resulting singleton reaches its failing `ASSERT`.  For every reference with a non-null address
`store` returns a non-null identity. -/
theorem store_null_inserts_entry (s : http_singleton) (v w : shared_ptr)
    (hfree : s.m_sharedPtrs.find nullptr = none) (hnull : v.get = nullptr)
    (hw : w.get ≠ nullptr) :
    (store (some s) v).ret = nullptr
    ∧ (store (some s) v).ret = (store none v).ret
    ∧ (store (some s) shared_ptr.empty).ret = nullptr
    ∧ (∃ s1, (store (some s) v).state = some s1
        ∧ s1.m_sharedPtrs.find nullptr = some v
        ∧ s1.m_sharedPtrs.size = s.m_sharedPtrs.size + 1
        ∧ (cleanup s1).asserted = true)
    ∧ (store (some s) w).ret ≠ nullptr := by
  rw [store_some, store_some, store_some, store_none, hnull]
  refine ⟨rfl, rfl, rfl, ⟨_, rfl, ?_, ?_, ?_⟩, hw⟩
  · exact HandleTable.find_insert_of_find_none hfree v
  · exact HandleTable.size_insert_of_find_none hfree v
  · have hsize := HandleTable.size_insert_of_find_none hfree v
    simp [cleanup, hsize]

/-- Witness of C16: the empty reference stored into the one-entry table. -/
theorem store_null_inserts_entry_witness :
    tableOne.m_sharedPtrs.find nullptr = none
    ∧ shared_ptr.get shared_ptr.empty = nullptr
    ∧ shared_ptr.get ⟨some 2, 32⟩ ≠ nullptr
    ∧ (store (some tableOne) shared_ptr.empty).ret = nullptr
    ∧ entryAt (store (some tableOne) shared_ptr.empty).state nullptr = some shared_ptr.empty
    ∧ (store (some tableOne) ⟨some 2, 32⟩).ret ≠ nullptr :=
  ⟨by decide, rfl, by decide,
    (store_null_inserts_entry tableOne shared_ptr.empty ⟨some 2, 32⟩
      (by decide) rfl (by decide)).1,
    by decide,
    (store_null_inserts_entry tableOne shared_ptr.empty ⟨some 2, 32⟩
      (by decide) rfl (by decide)).2.2.2.2⟩

end HttpClient
